import Mathlib

/-!
Verification of the numerical-integration module `wafo/integrate.py`.

The development shallowly embeds the integration routines over exact
rationals (`ℚ` plays the role of the IEEE doubles of the source; machine
epsilon is kept as the explicit constant `epsQ`).  Real-valued kernels
that cannot be represented exactly in `ℚ` (the orthogonal-polynomial
recurrences inside the Newton root-finders, the per-pass weighted sums of
the adaptive Gauss engine, and the externally imported accelerator
`dea3`) are abstracted as function parameters; the control flow around
them — which is what the statements below are about — is translated
line by line from the source.
-/

/-! ## Adaptive Gauss quadrature (`_Gaussq.__call__`) -/

/-- Absolute value, written as the source computes it (`abs(x)`), as an
executable conditional. -/
def rAbs (q : ℚ) : ℚ :=
  if q < 0 then -q else q

/-- Binary maximum (`max` / `np.maximum`), as an executable
conditional. -/
def rMax (a b : ℚ) : ℚ :=
  if a < b then b else a


/-- Result of one weighted-sum evaluation `np.sum(w * y, axis=1) * dx[k]`.
A `nan` arises exactly when the integrand produced a NaN at some node. -/
inductive RV where
  | nan : RV
  | num (q : ℚ) : RV
deriving DecidableEq

/-- The value actually stored in `val[j]` after the line
`val[np.isnan(val)] = val_old[np.isnan(val)]`: a NaN weighted sum is
replaced by the previous estimate `val_old[j]`. -/
def rvValue : RV → ℚ → ℚ
  | RV.nan, prev => prev
  | RV.num q, _ => q

/-- Loop state of `_Gaussq.__call__`: the arrays `val`, `val_old`,
`abserr`, the active index set `k`, the current number of base points
`gn`, and whether the `break` was taken. -/
structure GState (nk : ℕ) where
  val : Fin nk → ℚ
  val_old : Fin nk → ℚ
  abserr : Fin nk → ℚ
  k : Finset (Fin nk)
  gn : ℕ
  broke : Bool

/-- `val` after the pass: active problems get the (NaN-replaced) weighted
sum produced by the oracle `quad` for this pass, inactive ones keep their
previous value.  `quad i j` stands for `np.sum(w * y, axis=1) * dx[k]`
at pass `i` for problem `j`. -/
def gaussqVal {nk : ℕ} (quad : ℕ → Fin nk → RV) (i : ℕ) (s : GState nk) : Fin nk → ℚ :=
  fun j => if j ∈ s.k then rvValue (quad i j) (s.val_old j) else s.val j

/-- `abserr[k] = abs(val_old[k] - val[k])` on the active set, unchanged
elsewhere. -/
def gaussqAbserr {nk : ℕ} (s : GState nk) (val1 : Fin nk → ℚ) : Fin nk → ℚ :=
  fun j => if j ∈ s.k then rAbs (s.val_old j - val1 j) else s.abserr j

/-- `k, = np.where(abserr > np.maximum(abs(releps * val), abseps))`. -/
def gaussqActive {nk : ℕ} (releps abseps : ℚ) (val1 abserr1 : Fin nk → ℚ) : Finset (Fin nk) :=
  Finset.univ.filter (fun j => rMax (rAbs (releps * val1 j)) abseps < abserr1 j)

/-- One pass of the refinement loop of `_Gaussq.__call__` at loop index
`i` (0-based, as in `for i in range(max_iter)`).  The `broke` flag makes
the Python `break` a fixed point of the step. -/
def gaussqStep {nk : ℕ} (quad : ℕ → Fin nk → RV) (releps abseps : ℚ) (i : ℕ)
    (s : GState nk) : GState nk :=
  if s.broke = true then s
  else
    let val1 := gaussqVal quad i s
    if 2 ≤ i then
      let abserr1 := gaussqAbserr s val1
      let k1 := gaussqActive releps abseps val1 abserr1
      if k1 = ∅ then
        ⟨val1, s.val_old, abserr1, k1, s.gn, true⟩
      else
        ⟨val1, fun j => if j ∈ k1 then val1 j else s.val_old j, abserr1, k1, 2 * s.gn, false⟩
    else
      ⟨val1, fun j => if j ∈ s.k then val1 j else s.val_old j, s.abserr, s.k, 2 * s.gn, false⟩

/-- Initial state: `gn = 2`, `val = zeros`, `val_old = ones`,
`abserr = zeros`, all problems active. -/
def gaussqInit (nk : ℕ) : GState nk :=
  ⟨fun _ => 0, fun _ => 1, fun _ => 0, Finset.univ, 2, false⟩

/-- The state after the first `i` passes of the loop. -/
def gaussqRunUpTo (nk : ℕ) (quad : ℕ → Fin nk → RV) (releps abseps : ℚ) (i : ℕ) : GState nk :=
  (List.range i).foldl (fun s t => gaussqStep quad releps abseps t s) (gaussqInit nk)

/-! ## Romberg integration (`romberg`) -/

/-- Richardson extrapolation of one new row from the previous row:
`rom[two, k+1] = rom[two, k] + (rom[two, k] - rom[one, k]) / (fp[k] - 1)`
with `fp[k] = 4 ^ (k + 1)`. -/
def extrapAux : List ℚ → ℚ → ℕ → List ℚ
  | [], last, _ => [last]
  | p :: ps, last, k => last :: extrapAux ps (last + (last - p) / ((4 : ℚ) ^ (k + 1) - 1)) (k + 1)

/-- Extrapolated row built from the previous row and the new trapezoid
value `rom[two, 0]`. -/
def extrapRow (prev : List ℚ) (t0 : ℚ) : List ℚ :=
  extrapAux prev t0 0

/-- Loop state of `romberg`: the live row of the extrapolation table, the
current step `h`, `ipower`, the rolling diagonal values `ih2`/`ih4`, the
last accelerated pair `res`/`abserr`, the `break` flag, and a flag
recording whether any warning was emitted (`romberg` contains no call to
`warnings.warn`, so no step ever sets it). -/
structure RombergState where
  row : List ℚ
  hh : ℚ
  ipower : ℕ
  ih2 : ℚ
  ih4 : ℚ
  res : ℚ
  abserr : ℚ
  broke : Bool
  warned : Bool

/-- State before the loop: `rom[0, 0] = h * (fun(a) + fun(b)) / 2`,
`ipower = 1`, `ih2 = 0`, `ih4 = rom[0, 0]`, `abserr = ih4`. -/
def rombergInit (f : ℚ → ℚ) (a b : ℚ) : RombergState :=
  ⟨[(b - a) * (f a + f b) / 2], b - a, 1, 0, (b - a) * (f a + f b) / 2, 0,
    (b - a) * (f a + f b) / 2, false, false⟩

/-- The new raw trapezoid value of a pass:
`rom[two, 0] = 0.5 * rom[one, 0] + un5` with
`un5 = sum(fun(a + arange(1, 2 * ipower, 2) * h)) * h` at the halved
step `h`. -/
def rombergT0 (f : ℚ → ℚ) (a : ℚ) (s : RombergState) : ℚ :=
  s.row.headD 0 / 2 +
    (((List.range s.ipower).map
      (fun t => f (a + ((2 * t + 1 : ℕ) : ℚ) * (s.hh / 2)))).sum) * (s.hh / 2)

/-- The accelerated pair `dea3(ih1, ih2, ih4)` computed at a pass: the
arguments are the two rolled diagonal values and the new row's last
(most extrapolated) entry. -/
def rombergD (f : ℚ → ℚ) (a : ℚ) (dea3 : ℚ → ℚ → ℚ → ℚ × ℚ) (s : RombergState) : ℚ × ℚ :=
  dea3 s.ih2 s.ih4 ((extrapRow s.row (rombergT0 f a s)).getLastD 0)

/-- One pass of the `romberg` loop at index `i` (the Python loop runs
`i = 1, ..., table_limit - 1`).  The three-point accelerator `dea3`
(imported from `wafo.misc`, outside this module) is a parameter. -/
def rombergStep (f : ℚ → ℚ) (a : ℚ) (releps abseps : ℚ)
    (dea3 : ℚ → ℚ → ℚ → ℚ × ℚ) (i : ℕ) (s : RombergState) : RombergState :=
  if s.broke = true then s
  else
    let row1 := extrapRow s.row (rombergT0 f a s)
    if 2 ≤ i then
      let p := rombergD f a dea3 s
      if p.2 ≤ rMax abseps (releps * rAbs p.1) then
        ⟨row1, s.hh / 2, s.ipower, s.ih4, row1.getLastD 0, p.1, p.2, true, false⟩
      else
        ⟨row1, s.hh / 2, 2 * s.ipower, s.ih4, row1.getLastD 0, p.1, p.2, false, false⟩
    else
      ⟨row1, s.hh / 2, 2 * s.ipower, s.ih4, row1.getLastD 0, s.res, s.abserr, false, false⟩

/-- The state after passes `1, ..., n` of the `romberg` loop. -/
def rombergRunUpTo (f : ℚ → ℚ) (a b releps abseps : ℚ)
    (dea3 : ℚ → ℚ → ℚ → ℚ × ℚ) (n : ℕ) : RombergState :=
  (List.range' 1 n).foldl (fun s i => rombergStep f a releps abseps dea3 i s) (rombergInit f a b)

/-- `romberg`: run the loop for `i in range(1, table_limit)` and return
the last accelerated `(res, abserr)` pair. -/
def romberg (f : ℚ → ℚ) (a b releps abseps : ℚ)
    (dea3 : ℚ → ℚ → ℚ → ℚ × ℚ) (table_limit : ℕ) : ℚ × ℚ :=
  ((rombergRunUpTo f a b releps abseps dea3 (table_limit - 1)).res,
   (rombergRunUpTo f a b releps abseps dea3 (table_limit - 1)).abserr)

/-- The clamp `max(min(round(log2(h / h_min)), 30), 3)` applied to the
rounded logarithm `L`. -/
def tableLimitClamp (L : ℤ) : ℤ :=
  max (min L 30) 3

/-- The raw composite trapezoid estimates built by the loop:
`trapT i` is `rom[., 0]` at pass `i`, i.e. the trapezoid rule with step
`(b - a) / 2 ^ i`, following the recurrence
`rom[two, 0] = 0.5 * rom[one, 0] + un5` of the source. -/
def trapT (f : ℚ → ℚ) (a b : ℚ) : ℕ → ℚ
  | 0 => (b - a) * (f a + f b) / 2
  | i + 1 =>
    trapT f a b i / 2 +
      (((List.range (2 ^ i)).map
        (fun t => f (a + ((2 * t + 1 : ℕ) : ℚ) * ((b - a) / 2 ^ (i + 1))))).sum) *
        ((b - a) / 2 ^ (i + 1))

/-- Accelerator oracle used for evaluation: reports its middle argument
as the estimate, with error 1 (never within a zero tolerance). -/
def dea3MidOracle : ℚ → ℚ → ℚ → ℚ × ℚ :=
  fun _ q _ => (q, 1)

/-- Accelerator oracle used for evaluation: reports its last argument as
the estimate, with error 1 (never within a zero tolerance). -/
def dea3LastOracle : ℚ → ℚ → ℚ → ℚ × ℚ :=
  fun _ _ r => (r, 1)

/-! ## Newton root-finder loops (`_h_roots_newton`, `_j_roots_newton`,
`_la_roots_newton`)

The polynomial recurrences and derivative formulas are real-valued and
are abstracted as the update kernel `F` mapping the current iterate `z`
to the Newton correction `dz = L / pp`; the iteration control (cap,
stopping test, warning) is translated from the source. -/

/-- Result of a simultaneous Newton iteration: final iterate, last
correction, number of passes executed, and whether the `for`-`else`
emitted the too-many-iterations warning. -/
structure NewtonResult (m : ℕ) where
  z : Fin m → ℚ
  dz : Fin m → ℚ
  count : ℕ
  warned : Bool

/-- The shared iteration skeleton: run the body at most `fuel` times,
each pass computing `dz = F z`, updating `z = z - dz`, and breaking when
`stop dz z` holds (with `z` already updated, as in the source); if the
fuel is exhausted without a break the warning is emitted. -/
def newtonGo {m : ℕ} (stop : (Fin m → ℚ) → (Fin m → ℚ) → Bool)
    (F : (Fin m → ℚ) → (Fin m → ℚ)) :
    ℕ → (Fin m → ℚ) → (Fin m → ℚ) → ℕ → NewtonResult m
  | 0, z, dz, c => ⟨z, dz, c, true⟩
  | fuel + 1, z, _, c =>
    let dz := F z
    let z1 := fun j => z j - dz j
    if stop dz z1 then ⟨z1, dz, c + 1, false⟩
    else newtonGo stop F fuel z1 dz (c + 1)

/-- The shared default tolerance `releps = 3e-14`. -/
def newtonReleps : ℚ :=
  3 / 10 ^ 14

/-- Stop test of `_h_roots_newton` and `_la_roots_newton`:
`not np.any(abs(dz) > releps)` — an absolute comparison. -/
def absStop {m : ℕ} (releps : ℚ) (dz : Fin m → ℚ) (_z : Fin m → ℚ) : Bool :=
  ! decide (∃ j, releps < rAbs (dz j))

/-- Stop test of `_j_roots_newton`:
`not any(abs(dz) > releps * abs(z))` — relative to the updated roots. -/
def relStop {m : ℕ} (releps : ℚ) (dz z : Fin m → ℚ) : Bool :=
  ! decide (∃ j, releps * rAbs (z j) < rAbs (dz j))

/-- The `_h_roots_newton` iteration: cap 10, absolute stop test. -/
def h_roots_newton_loop {m : ℕ} (F : (Fin m → ℚ) → (Fin m → ℚ)) (z0 : Fin m → ℚ) :
    NewtonResult m :=
  newtonGo (absStop newtonReleps) F 10 z0 (fun _ => 0) 0

/-- The `_la_roots_newton` iteration: cap 10, absolute stop test. -/
def la_roots_newton_loop {m : ℕ} (F : (Fin m → ℚ) → (Fin m → ℚ)) (z0 : Fin m → ℚ) :
    NewtonResult m :=
  newtonGo (absStop newtonReleps) F 10 z0 (fun _ => 0) 0

/-- The `_j_roots_newton` iteration: cap 10, relative stop test. -/
def j_roots_newton_loop {m : ℕ} (F : (Fin m → ℚ) → (Fin m → ℚ)) (z0 : Fin m → ℚ) :
    NewtonResult m :=
  newtonGo (relStop newtonReleps) F 10 z0 (fun _ => 0) 0

/-- Constant kernel producing the tiny correction 1e-20, used to evaluate
the stop tests at a concrete input. -/
def tinyKernel : (Fin 1 → ℚ) → (Fin 1 → ℚ) :=
  fun _ _ => 1 / 10 ^ 20

/-- Constant kernel producing the correction 1, used to evaluate the
iteration cap at a concrete input. -/
def unitKernel : (Fin 1 → ℚ) → (Fin 1 → ℚ) :=
  fun _ _ => 1

/-- Zero initial iterate on one root. -/
def zeroIterate : Fin 1 → ℚ :=
  fun _ => 0

/-! ## Root mirroring (`_expand_roots`) -/

/-- Python slice `x[start::-1]` (step −1): a negative `start` wraps to
`start + len(x)`; the slice runs from the wrapped start down to index 0. -/
def sliceRevFrom (x : List ℚ) (start : ℤ) : List ℚ :=
  let s : ℤ := if start < 0 then start + x.length else start
  if s < 0 then [] else (x.take (s.toNat + 1)).reverse

/-- `_expand_roots(x, w, n, m)`: force the central root to 0 when
`m + m > n`, decrement `m` when `m + m differs from n`, then mirror
`x[m-1::-1]` with a sign flip and mirror the weights identically. -/
def expand_roots (x w : List ℚ) (n m : ℕ) : List ℚ × List ℚ :=
  let x1 := if n < m + m then x.set (m - 1) 0 else x
  let m2 := if m + m = n then m else m - 1
  (x1 ++ (sliceRevFrom x1 ((m2 : ℤ) - 1)).map (fun t => -t),
   w ++ sliceRevFrom w ((m2 : ℤ) - 1))

/-! ## Shape-parameter validation (`j_roots`, `la_roots`) -/

/-- `_assert(cond, msg)`: raise `ValueError(msg)` when the condition
fails, modelled in `Except`. -/
def pyAssert (cond : Bool) (msg : String) : Except String Unit :=
  if cond then Except.ok () else Except.error msg

/-- Message of the Jacobi shape check. -/
def jRootsMsg : String :=
  "alpha and beta must be greater than -1"

/-- Message of the Laguerre shape check. -/
def laRootsMsg : String :=
  "alpha must be greater than -1"

/-- `j_roots(n, alpha, beta)` (Newton method): validate
`(-1 < alpha) & (-1 < beta)` and only then run the Newton computation,
abstracted as `newton`. -/
def j_roots {R : Type} (newton : ℚ → ℚ → R) (alpha beta : ℚ) : Except String R :=
  match pyAssert (decide (-1 < alpha) && decide (-1 < beta)) jRootsMsg with
  | Except.error e => Except.error e
  | Except.ok _ => Except.ok (newton alpha beta)

/-- `la_roots(n, alpha)` (Newton method): validate `-1 < alpha` and only
then run the Newton computation, abstracted as `newton`. -/
def la_roots {R : Type} (newton : ℚ → R) (alpha : ℚ) : Except String R :=
  match pyAssert (decide (-1 < alpha)) laRootsMsg with
  | Except.error e => Except.error e
  | Except.ok _ => Except.ok (newton alpha)

/-! ## QuadGR (`_Quadgr`) -/

/-- Machine epsilon of an IEEE double, `np.finfo(float).eps`. -/
def epsQ : ℚ :=
  1 / 2 ^ 52

/-- Integration limits as passed to `quadgr`: finite reals or
infinities. -/
inductive XLim where
  | fin (q : ℚ)
  | pinf
  | ninf
deriving DecidableEq

/-- Float-valued results of `quadgr` (the degenerate branch can produce
`inf - inf = nan`). -/
inductive XVal where
  | num (q : ℚ)
  | pinf
  | ninf
  | nan
deriving DecidableEq

/-- IEEE equality test `a == b` on the limits. -/
def xeq : XLim → XLim → Bool
  | XLim.fin x, XLim.fin y => x == y
  | XLim.pinf, XLim.pinf => true
  | XLim.ninf, XLim.ninf => true
  | _, _ => false

/-- IEEE subtraction `x - y` on the limits (`inf - inf` is NaN). -/
def xsub : XLim → XLim → XVal
  | XLim.pinf, XLim.pinf => XVal.nan
  | XLim.ninf, XLim.ninf => XVal.nan
  | XLim.pinf, _ => XVal.pinf
  | XLim.ninf, _ => XVal.ninf
  | XLim.fin _, XLim.pinf => XVal.ninf
  | XLim.fin _, XLim.ninf => XVal.pinf
  | XLim.fin x, XLim.fin y => XVal.num (x - y)

/-- `np.real(a) > np.real(b)` on the limits. -/
def xgt : XLim → XLim → Bool
  | XLim.fin x, XLim.fin y => decide (y < x)
  | XLim.pinf, XLim.pinf => false
  | XLim.pinf, _ => true
  | XLim.ninf, _ => false
  | XLim.fin _, XLim.pinf => false
  | XLim.fin _, XLim.ninf => true

/-- Negation on the float results, for the reversed-limits fixup. -/
def xneg : XVal → XVal
  | XVal.num q => XVal.num (-q)
  | XVal.pinf => XVal.ninf
  | XVal.ninf => XVal.pinf
  | XVal.nan => XVal.nan

/-- Positive half of the fixed 12-point Gauss-Legendre abscissas of
`_Quadgr._nodes_and_weights`. -/
def xq6 : List ℚ :=
  [0.12523340851146894, 0.36783149899818018, 0.58731795428661748,
   0.76990267419430469, 0.9041172563704748, 0.98156063424671924]

/-- Half of the matching weights. -/
def wq6 : List ℚ :=
  [0.24914704581340288, 0.23349253653835478, 0.20316742672306584,
   0.16007832854334636, 0.10693932599531818, 0.047175336386511842]

/-- `xq = hstack((xq, -xq))`. -/
def xq : List ℚ :=
  xq6 ++ xq6.map (fun t => -t)

/-- `wq = hstack((wq, wq))`. -/
def wq : List ℚ :=
  wq6 ++ wq6

/-- `richardson(Q, k)` with the singularity guard `c = max(c, 0.07)`. -/
def richardson (Q : ℕ → ℚ) (k : ℕ) : ℚ :=
  let c := rMax ((Q (k - 1) - Q (k - 2)) / (Q k - Q (k - 1)) - 1) (7 / 100)
  Q k + (Q k - Q (k - 1)) / c

/-- First index of the minimum of a list (`np.argmin`). -/
def argminAux : List ℚ → ℕ → ℕ → ℚ → ℕ
  | [], _, best, _ => best
  | a :: l, i, best, bv =>
    if a < bv then argminAux l (i + 1) i a else argminAux l (i + 1) best bv

/-- First index of the minimum of a list (`np.argmin`); 0 on `[]`. -/
def argmin : List ℚ → ℕ
  | [] => 0
  | a :: l => argminAux l 1 0 a

/-- `_Quadgr._get_best_estimate`: among the 1–3 raw/extrapolated
estimates available at pass `k`, pick the pair with the smallest
absolute difference. -/
def get_best_estimate (Q0 Q1 Q2 : ℕ → ℚ) (k : ℕ) : ℚ × ℚ :=
  let Qv : List ℚ :=
    if 6 ≤ k then [Q0 k, Q1 k, Q2 k]
    else if 4 ≤ k then [Q0 k, Q1 k]
    else [Q0 k]
  let Qw : List ℚ :=
    if 6 ≤ k then [Q0 (k - 1), Q1 (k - 1), Q2 (k - 1)]
    else if 4 ≤ k then [Q0 (k - 1), Q1 (k - 1)]
    else [Q0 (k - 1)]
  let errors : List ℚ := (Qv.zip Qw).map (fun p => rAbs (p.1 - p.2))
  let j := argmin errors
  (Qv.getD j 0, errors.getD j 0)

/-- Loop state of `_Quadgr._integrate`: current node list and half
interval length, the three estimate arrays, the current best pair and
the convergence flag (which is also the `break` condition). -/
structure QuadgrState where
  x : List ℚ
  hh : ℚ
  Q0 : ℕ → ℚ
  Q1 : ℕ → ℚ
  Q2 : ℕ → ℚ
  Q : ℚ
  err : ℚ
  converged : Bool

/-- Column sums of `np.reshape(v, (-1, nq))`: entry `c` sums the values
at positions congruent to `c` mod `nq`. -/
def colSums (nq : ℕ) (l : List ℚ) : List ℚ :=
  (List.range nq).map
    (fun c => ((l.enum.filter (fun p => p.1 % nq == c)).map (fun p => p.2)).sum)

/-- State before the bisection loop: one interval, 12-node quadrature
`Q0[0] = hh * sum(wq * fun(x))`. -/
def quadgrStateInit (f : ℚ → ℚ) (a b : ℚ) : QuadgrState :=
  let hh := (b - a) / 2
  let x := xq.map (fun t => (a + b) / 2 + hh * t)
  ⟨x, hh,
   Function.update (fun _ => 0) 0 (hh * ((wq.zip (x.map f)).map (fun p => p.1 * p.2)).sum),
   fun _ => 0, fun _ => 0, 0, 0, false⟩

/-- One pass of the bisection loop of `_Quadgr._integrate` at pass `k`
(`for k in range(1, max_iter)`).  `np.isfinite(Q)` is identically true
over the rational model, so `converged = (err < abseps)`. -/
def quadgrStep (f : ℚ → ℚ) (a b : ℚ) (abseps : ℚ) (k : ℕ) (s : QuadgrState) : QuadgrState :=
  if s.converged = true then s
  else
    let hh := s.hh / 2
    let x := (s.x.map (fun t => t + a) ++ s.x.map (fun t => t + b)).map (fun t => t / 2)
    let Q0 := Function.update s.Q0 k
      (hh * ((wq.zip (colSums 12 (x.map f))).map (fun p => p.1 * p.2)).sum)
    let Q1 := if 3 ≤ k then Function.update s.Q1 k (richardson Q0 k) else s.Q1
    let Q2 := if 5 ≤ k then Function.update s.Q2 k (richardson Q1 k) else s.Q2
    let p := get_best_estimate Q0 Q1 Q2 k
    ⟨x, hh, Q0, Q1, Q2, p.1, p.2, decide (p.2 < abseps)⟩

/-- The state after running the bisection loop `for k in
range(1, max_iter)`. -/
def quadgrRun (f : ℚ → ℚ) (a b : ℚ) (abseps : ℚ) (max_iter : ℕ) : QuadgrState :=
  (List.range' 1 (max_iter - 1)).foldl (fun s k => quadgrStep f a b abseps k s)
    (quadgrStateInit f a b)

/-- `_Quadgr._integrate` on a finite interval; the returned error is the
best error estimate bumped by `2 * eps`. -/
def quadgrIntegrate (f : ℚ → ℚ) (a b : ℚ) (abseps : ℚ) (max_iter : ℕ) : ℚ × ℚ :=
  ((quadgrRun f a b abseps max_iter).Q, (quadgrRun f a b abseps max_iter).err + 2 * epsQ)

/-- `_Quadgr.__call__`: degenerate equal limits return `(b - a, b - a)`
immediately; otherwise the limits are ordered, infinite bounds are
removed by the rational change of variable, and the finite-interval
integrator runs; a reversed orientation negates the value only. -/
def quadgr (f : ℚ → ℚ) (a b : XLim) (abseps : ℚ) (max_iter : ℕ) : XVal × XVal :=
  if xeq a b = true then (xsub b a, xsub b a)
  else
    let rev := xgt a b
    let a1 := if rev = true then b else a
    let b1 := if rev = true then a else b
    let qe : ℚ × ℚ :=
      match a1, b1 with
      | XLim.fin x, XLim.fin y => quadgrIntegrate f x y abseps max_iter
      | XLim.fin x, XLim.pinf =>
        quadgrIntegrate (fun t => f (x + t / (1 - t)) / (1 - t) ^ 2) 0 1 abseps max_iter
      | XLim.ninf, XLim.fin y =>
        quadgrIntegrate (fun t => f (y + t / (1 + t)) / (1 + t) ^ 2) (-1) 0 abseps max_iter
      | XLim.ninf, XLim.pinf =>
        ((quadgrIntegrate (fun t => f (t / (1 - t)) / (1 - t) ^ 2) 0 1 (abseps / 2) max_iter).1 +
         (quadgrIntegrate (fun t => f (t / (1 + t)) / (1 + t) ^ 2) (-1) 0 (abseps / 2) max_iter).1,
         (quadgrIntegrate (fun t => f (t / (1 - t)) / (1 - t) ^ 2) 0 1 (abseps / 2) max_iter).2 +
         (quadgrIntegrate (fun t => f (t / (1 + t)) / (1 + t) ^ 2) (-1) 0 (abseps / 2) max_iter).2)
      | _, _ => (0, 0)
    (if rev = true then xneg (XVal.num qe.1) else XVal.num qe.1, XVal.num qe.2)

/-! ## Quadrature-rule cache (`_Gaussq._points_and_weights`) -/

/-- Normalize a positive rational into the mantissa window
`[10^5, 10^6)` by repeated multiplication/division by 10 (fuel covers
the full double range): returns `(x, k)` with `x = q * 10^k`. -/
def sigScale : ℕ → ℚ → ℚ × ℤ
  | 0, q => (q, 0)
  | fuel + 1, q =>
    if q < 100000 then
      let p := sigScale fuel (q * 10)
      (p.1, p.2 + 1)
    else if 1000000 ≤ q then
      let p := sigScale fuel (q / 10)
      (p.1, p.2 - 1)
    else (q, 0)

/-- Floor of a rational (the denominator is positive, so flooring
integer division of numerator by denominator). -/
def qfloor (q : ℚ) : ℤ :=
  q.num.fdiv q.den

/-- Round half up: `floor(q + 1/2)`. -/
def qround (q : ℚ) : ℤ :=
  qfloor (q + 1 / 2)

/-- Models CPython `format(v, 'g')` as used in the cache key
`'wfun%d_%d_%g_%g'`: the pair
(signed 6-significant-digit mantissa, decimal exponent) that determines
the formatted string.  For two values away from rounding ties (and away
from the carry boundary where rounding promotes the mantissa to 10^6),
the two `'g'` strings are equal exactly when these pairs are equal.
(CPython rounds half to even; `qround` rounds half up — the two agree
off ties, and the witnesses below avoid ties.) -/
def gKey (q : ℚ) : ℤ × ℤ :=
  if q = 0 then (0, 0)
  else
    let p := sigScale 800 (rAbs q)
    let m := qround p.1
    ((if q < 0 then -m else m), -p.2)

/-- Cache keys: `(wfun, gn, 'g' of alpha, 'g' of beta)` — the string
`'wfun%d_%d_%g_%g'` applied to
`(wfun, gn, alpha, beta)` determines and is determined by this tuple. -/
def cacheName (wfun gn : ℕ) (alpha beta : ℚ) : ℕ × ℕ × (ℤ × ℤ) × (ℤ × ℤ) :=
  (wfun, gn, gKey alpha, gKey beta)

/-- `_Gaussq._points_and_weights`: look the key up in the module-level
dict `_POINTS_AND_WEIGHTS`; on a miss compute `qrule(gn, wfun, alpha,
beta)` (abstracted as `qrule_f`) and store it under the key. -/
def points_and_weights {R : Type} (qrule_f : ℕ → ℕ → ℚ → ℚ → R)
    (cache : List ((ℕ × ℕ × (ℤ × ℤ) × (ℤ × ℤ)) × R)) (gn wfun : ℕ) (alpha beta : ℚ) :
    R × List ((ℕ × ℕ × (ℤ × ℤ) × (ℤ × ℤ)) × R) :=
  let name := cacheName wfun gn alpha beta
  match cache.find? (fun p => p.1 == name) with
  | some p => (p.2, cache)
  | none => (qrule_f gn wfun alpha beta, (name, qrule_f gn wfun alpha beta) :: cache)

/-- Rule oracle distinguishing shape parameters: the computed rule is the
alpha it was computed for. -/
def alphaRule : ℕ → ℕ → ℚ → ℚ → ℚ :=
  fun _ _ a _ => a

/-! ## Helper lemmas: adaptive Gauss engine -/

/-- A broken state is a fixed point of the pass. -/
lemma gaussqStep_of_broke {nk : ℕ} (quad : ℕ → Fin nk → RV) (releps abseps : ℚ) (i : ℕ)
    (s : GState nk) (h : s.broke = true) :
    gaussqStep quad releps abseps i s = s := by
  simp [gaussqStep, h]

/-- On the first two passes no convergence test happens. -/
lemma gaussqStep_early {nk : ℕ} (quad : ℕ → Fin nk → RV) (releps abseps : ℚ) (i : ℕ)
    (s : GState nk) (h : s.broke = false) (hi : i < 2) :
    gaussqStep quad releps abseps i s =
      ⟨gaussqVal quad i s, fun j => if j ∈ s.k then gaussqVal quad i s j else s.val_old j,
       s.abserr, s.k, 2 * s.gn, false⟩ := by
  have h2 : ¬ 2 ≤ i := by omega
  simp [gaussqStep, h, h2]

/-- From the third pass on, with an empty new active set the loop breaks. -/
lemma gaussqStep_late_break {nk : ℕ} (quad : ℕ → Fin nk → RV) (releps abseps : ℚ) (i : ℕ)
    (s : GState nk) (h : s.broke = false) (hi : 2 ≤ i)
    (hk : gaussqActive releps abseps (gaussqVal quad i s) (gaussqAbserr s (gaussqVal quad i s)) = ∅) :
    gaussqStep quad releps abseps i s =
      ⟨gaussqVal quad i s, s.val_old, gaussqAbserr s (gaussqVal quad i s),
       gaussqActive releps abseps (gaussqVal quad i s) (gaussqAbserr s (gaussqVal quad i s)),
       s.gn, true⟩ := by
  simp [gaussqStep, h, hi, hk]

/-- From the third pass on, with a nonempty new active set the loop
continues with doubled `gn`. -/
lemma gaussqStep_late_cont {nk : ℕ} (quad : ℕ → Fin nk → RV) (releps abseps : ℚ) (i : ℕ)
    (s : GState nk) (h : s.broke = false) (hi : 2 ≤ i)
    (hk : ¬ gaussqActive releps abseps (gaussqVal quad i s) (gaussqAbserr s (gaussqVal quad i s)) = ∅) :
    gaussqStep quad releps abseps i s =
      ⟨gaussqVal quad i s,
       fun j => if j ∈ gaussqActive releps abseps (gaussqVal quad i s)
                    (gaussqAbserr s (gaussqVal quad i s)) then gaussqVal quad i s j
                else s.val_old j,
       gaussqAbserr s (gaussqVal quad i s),
       gaussqActive releps abseps (gaussqVal quad i s) (gaussqAbserr s (gaussqVal quad i s)),
       2 * s.gn, false⟩ := by
  simp [gaussqStep, h, hi, hk]

/-- Unfolding one pass of the run. -/
lemma gaussqRunUpTo_succ (nk : ℕ) (quad : ℕ → Fin nk → RV) (releps abseps : ℚ) (i : ℕ) :
    gaussqRunUpTo nk quad releps abseps (i + 1) =
      gaussqStep quad releps abseps i (gaussqRunUpTo nk quad releps abseps i) := by
  simp [gaussqRunUpTo, List.range_succ]

/-- The `val` array written by a pass is always the NaN-replaced batch of
weighted sums. -/
lemma gaussqStep_val {nk : ℕ} (quad : ℕ → Fin nk → RV) (releps abseps : ℚ) (i : ℕ)
    (s : GState nk) (h : s.broke = false) :
    (gaussqStep quad releps abseps i s).val = gaussqVal quad i s := by
  rcases Nat.lt_or_ge i 2 with hi | hi
  · rw [gaussqStep_early quad releps abseps i s h hi]
  · by_cases hk : gaussqActive releps abseps (gaussqVal quad i s)
      (gaussqAbserr s (gaussqVal quad i s)) = ∅
    · rw [gaussqStep_late_break quad releps abseps i s h hi hk]
    · rw [gaussqStep_late_cont quad releps abseps i s h hi hk]

/-- C1 (amended: the error test begins on the third pass, not the
second).  In `_Gaussq.__call__` the refinement loop starts with
`gn = 2` base points and doubles `gn` on every non-breaking pass (so
`gn = 2^(i+1)` after `i` passes); only from the third pass on (`1 < i`,
0-based) is each still-active problem's absolute error computed as the
absolute change from the prior estimate, and a problem is retained in
the active set exactly when that error exceeds
`rMax (rAbs (releps * estimate)) abseps`; the loop breaks as soon as the
active set is empty, and a broken state is final. -/
theorem gaussq_refinement_loop (nk : ℕ) (quad : ℕ → Fin nk → RV) (releps abseps : ℚ) :
    (gaussqInit nk).gn = 2
    ∧ (∀ i, (gaussqRunUpTo nk quad releps abseps i).broke = false →
        (gaussqRunUpTo nk quad releps abseps i).gn = 2 ^ (i + 1))
    ∧ (∀ i s, s.broke = true → gaussqStep quad releps abseps i s = s)
    ∧ (∀ i s, s.broke = false → i < 2 →
        (gaussqStep quad releps abseps i s).broke = false
        ∧ (gaussqStep quad releps abseps i s).gn = 2 * s.gn
        ∧ (gaussqStep quad releps abseps i s).k = s.k
        ∧ (gaussqStep quad releps abseps i s).abserr = s.abserr)
    ∧ (∀ i s, s.broke = false → 2 ≤ i →
        (gaussqStep quad releps abseps i s).abserr = gaussqAbserr s (gaussqVal quad i s)
        ∧ (gaussqStep quad releps abseps i s).k =
            gaussqActive releps abseps (gaussqVal quad i s) (gaussqAbserr s (gaussqVal quad i s))
        ∧ ((gaussqStep quad releps abseps i s).broke = true ↔
            gaussqActive releps abseps (gaussqVal quad i s)
              (gaussqAbserr s (gaussqVal quad i s)) = ∅)
        ∧ ((gaussqStep quad releps abseps i s).broke = false →
            (gaussqStep quad releps abseps i s).gn = 2 * s.gn))
    ∧ (∀ (val1 abserr1 : Fin nk → ℚ) (j : Fin nk),
        j ∈ gaussqActive releps abseps val1 abserr1 ↔ rMax (rAbs (releps * val1 j)) abseps < abserr1 j)
    ∧ (∀ (s : GState nk) (val1 : Fin nk → ℚ) (j : Fin nk), j ∈ s.k →
        gaussqAbserr s val1 j = rAbs (s.val_old j - val1 j)) := by
  refine ⟨rfl, ?_, ?_, ?_, ?_, ?_, ?_⟩
  · intro i
    induction i with
    | zero => intro _; rfl
    | succ n ih =>
      intro h
      rw [gaussqRunUpTo_succ] at h ⊢
      have hb : (gaussqRunUpTo nk quad releps abseps n).broke = false := by
        by_contra hb'
        have hb2 : (gaussqRunUpTo nk quad releps abseps n).broke = true := by
          revert hb'
          cases (gaussqRunUpTo nk quad releps abseps n).broke <;> simp
        rw [gaussqStep_of_broke quad releps abseps n _ hb2] at h
        rw [h] at hb2
        exact Bool.false_ne_true hb2
      have hgn := ih hb
      rcases Nat.lt_or_ge n 2 with hn | hn
      · rw [gaussqStep_early quad releps abseps n _ hb hn]
        show 2 * (gaussqRunUpTo nk quad releps abseps n).gn = 2 ^ (n + 1 + 1)
        rw [hgn]
        ring
      · by_cases hk : gaussqActive releps abseps (gaussqVal quad n (gaussqRunUpTo nk quad releps abseps n))
          (gaussqAbserr (gaussqRunUpTo nk quad releps abseps n)
            (gaussqVal quad n (gaussqRunUpTo nk quad releps abseps n))) = ∅
        · rw [gaussqStep_late_break quad releps abseps n _ hb hn hk] at h
          exact absurd h (by simp)
        · rw [gaussqStep_late_cont quad releps abseps n _ hb hn hk]
          show 2 * (gaussqRunUpTo nk quad releps abseps n).gn = 2 ^ (n + 1 + 1)
          rw [hgn]
          ring
  · intro i s h
    exact gaussqStep_of_broke quad releps abseps i s h
  · intro i s h hi
    rw [gaussqStep_early quad releps abseps i s h hi]
    exact ⟨rfl, rfl, rfl, rfl⟩
  · intro i s h hi
    by_cases hk : gaussqActive releps abseps (gaussqVal quad i s)
      (gaussqAbserr s (gaussqVal quad i s)) = ∅
    · rw [gaussqStep_late_break quad releps abseps i s h hi hk]
      refine ⟨rfl, rfl, ⟨fun _ => hk, fun _ => rfl⟩, ?_⟩
      intro hc
      exact absurd hc (by simp)
    · rw [gaussqStep_late_cont quad releps abseps i s h hi hk]
      refine ⟨rfl, rfl, ⟨fun hc => absurd hc (by simp), fun hc => absurd hc hk⟩, fun _ => rfl⟩
  · intro val1 abserr1 j
    simp [gaussqActive]
  · intro s val1 j hj
    simp [gaussqAbserr, hj]

/-- Witness for `gaussq_refinement_loop`: at the concrete third pass
(`i = 2`) from the initial state, the break flag agrees with emptiness
of the recomputed active set, and the loop-invariant `gn` count holds
after two passes. -/
theorem gaussq_refinement_loop_witness :
    ((gaussqStep (fun _ _ => RV.num 1) (1 / 1000) (1 / 1000) 2 (gaussqInit 1)).broke = true ↔
      gaussqActive (1 / 1000) (1 / 1000)
        (gaussqVal (fun _ _ => RV.num 1) 2 (gaussqInit 1))
        (gaussqAbserr (gaussqInit 1) (gaussqVal (fun _ _ => RV.num 1) 2 (gaussqInit 1))) = ∅)
    ∧ (gaussqRunUpTo 1 (fun _ _ => RV.num 1) (1 / 1000) (1 / 1000) 2).gn = 2 ^ 3 :=
  ⟨((gaussq_refinement_loop 1 (fun _ _ => RV.num 1) (1 / 1000) (1 / 1000)).2.2.2.2.1 2
      (gaussqInit 1) rfl (by decide)).2.2.1,
   (gaussq_refinement_loop 1 (fun _ _ => RV.num 1) (1 / 1000) (1 / 1000)).2.1 2 (by decide)⟩

/-- Counterexample to C1 as stated: with a constant weighted-sum oracle
and tolerances `releps = abseps = 1e-3`, after the second pass
(loop indices 0 and 1) the problem's absolute change from the prior
estimate is 0, which does not exceed
`max(releps * |estimate|, abseps) = 1e-3`; per the claim the problem
should have left the active set and the loop should have terminated,
but the code keeps the problem active and unbroken: the error test has
not yet run. -/
theorem gaussq_second_pass_cex :
    (gaussqRunUpTo 1 (fun _ _ => RV.num 1) (1 / 1000) (1 / 1000) 2).broke = false
    ∧ (gaussqRunUpTo 1 (fun _ _ => RV.num 1) (1 / 1000) (1 / 1000) 2).k = Finset.univ
    ∧ ¬ (rMax (rAbs ((1 / 1000 : ℚ) * (gaussqRunUpTo 1 (fun _ _ => RV.num 1) (1 / 1000) (1 / 1000) 2).val 0))
          (1 / 1000) <
        rAbs ((gaussqRunUpTo 1 (fun _ _ => RV.num 1) (1 / 1000) (1 / 1000) 2).val_old 0 -
          (gaussqRunUpTo 1 (fun _ _ => RV.num 1) (1 / 1000) (1 / 1000) 2).val 0)) := by
  refine ⟨by decide, by decide, by with_unfolding_all decide⟩

/-- C9 (confirmed): on every pass of `_Gaussq.__call__`, an active
problem whose newly computed weighted sum is NaN gets the NaN replaced
by the problem's previous estimate `val_old[j]` (`rvValue RV.nan prev =
prev`), a non-NaN weighted sum is stored as computed, and inactive
problems keep their values — so a NaN integrand output never enters the
`val` array returned for the batch. -/
theorem gaussq_nan_replacement {nk : ℕ} (quad : ℕ → Fin nk → RV) (releps abseps : ℚ) (i : ℕ)
    (s : GState nk) (h : s.broke = false) :
    (∀ j ∈ s.k, (gaussqStep quad releps abseps i s).val j = rvValue (quad i j) (s.val_old j))
    ∧ (∀ j, j ∉ s.k → (gaussqStep quad releps abseps i s).val j = s.val j)
    ∧ (∀ prev : ℚ, rvValue RV.nan prev = prev)
    ∧ (∀ q prev : ℚ, rvValue (RV.num q) prev = q) := by
  rw [gaussqStep_val quad releps abseps i s h]
  refine ⟨?_, ?_, fun _ => rfl, fun _ _ => rfl⟩
  · intro j hj
    simp [gaussqVal, hj]
  · intro j hj
    simp [gaussqVal, hj]

/-- Witness for `gaussq_nan_replacement`: a NaN weighted sum produced on
the very first pass is replaced by the initial previous estimate 1. -/
theorem gaussq_nan_replacement_witness :
    (gaussqStep (fun _ _ => RV.nan) 1 1 0 (gaussqInit 1)).val 0 =
      rvValue RV.nan ((gaussqInit 1).val_old 0) :=
  (gaussq_nan_replacement (fun _ _ => RV.nan) 1 1 0 (gaussqInit 1) rfl).1 0 (by decide)

/-! ## Helper lemmas: Romberg -/

/-- A broken state is a fixed point of the `romberg` pass. -/
lemma rombergStep_of_broke (f : ℚ → ℚ) (a releps abseps : ℚ) (dea3 : ℚ → ℚ → ℚ → ℚ × ℚ)
    (i : ℕ) (s : RombergState) (h : s.broke = true) :
    rombergStep f a releps abseps dea3 i s = s := by
  simp [rombergStep, h]

/-- On pass `i = 1` (and a hypothetical `i = 0`) no acceleration
happens: halve the step, build the new row, roll the diagonals. -/
lemma rombergStep_early (f : ℚ → ℚ) (a releps abseps : ℚ) (dea3 : ℚ → ℚ → ℚ → ℚ × ℚ)
    (i : ℕ) (s : RombergState) (h : s.broke = false) (hi : i < 2) :
    rombergStep f a releps abseps dea3 i s =
      ⟨extrapRow s.row (rombergT0 f a s), s.hh / 2, 2 * s.ipower, s.ih4,
       (extrapRow s.row (rombergT0 f a s)).getLastD 0, s.res, s.abserr, false, false⟩ := by
  have h2 : ¬ 2 ≤ i := by omega
  simp [rombergStep, h, h2]

/-- From pass `i = 2` on, the accelerated pair meeting the tolerance
breaks the loop. -/
lemma rombergStep_late_break (f : ℚ → ℚ) (a releps abseps : ℚ) (dea3 : ℚ → ℚ → ℚ → ℚ × ℚ)
    (i : ℕ) (s : RombergState) (h : s.broke = false) (hi : 2 ≤ i)
    (hc : (rombergD f a dea3 s).2 ≤ rMax abseps (releps * rAbs (rombergD f a dea3 s).1)) :
    rombergStep f a releps abseps dea3 i s =
      ⟨extrapRow s.row (rombergT0 f a s), s.hh / 2, s.ipower, s.ih4,
       (extrapRow s.row (rombergT0 f a s)).getLastD 0,
       (rombergD f a dea3 s).1, (rombergD f a dea3 s).2, true, false⟩ := by
  simp [rombergStep, h, hi, hc]

/-- From pass `i = 2` on, an accelerated pair outside the tolerance
continues with doubled `ipower`. -/
lemma rombergStep_late_cont (f : ℚ → ℚ) (a releps abseps : ℚ) (dea3 : ℚ → ℚ → ℚ → ℚ × ℚ)
    (i : ℕ) (s : RombergState) (h : s.broke = false) (hi : 2 ≤ i)
    (hc : ¬ (rombergD f a dea3 s).2 ≤ rMax abseps (releps * rAbs (rombergD f a dea3 s).1)) :
    rombergStep f a releps abseps dea3 i s =
      ⟨extrapRow s.row (rombergT0 f a s), s.hh / 2, 2 * s.ipower, s.ih4,
       (extrapRow s.row (rombergT0 f a s)).getLastD 0,
       (rombergD f a dea3 s).1, (rombergD f a dea3 s).2, false, false⟩ := by
  simp [rombergStep, h, hi, hc]

/-- Unfolding one pass of the `romberg` run. -/
lemma rombergRunUpTo_succ (f : ℚ → ℚ) (a b releps abseps : ℚ)
    (dea3 : ℚ → ℚ → ℚ → ℚ × ℚ) (n : ℕ) :
    rombergRunUpTo f a b releps abseps dea3 (n + 1) =
      rombergStep f a releps abseps dea3 (n + 1)
        (rombergRunUpTo f a b releps abseps dea3 n) := by
  simp [rombergRunUpTo, List.range'_concat, Nat.add_comm]

/-- The head of an extrapolated row is the new raw trapezoid value. -/
lemma extrapRow_headD (prev : List ℚ) (t0 : ℚ) : (extrapRow prev t0).headD 0 = t0 := by
  cases prev <;> simp [extrapRow, extrapAux]

/-- The raw trapezoid/step/ipower invariant of the `romberg` loop. -/
lemma rombergRunUpTo_invariant (f : ℚ → ℚ) (a b releps abseps : ℚ)
    (dea3 : ℚ → ℚ → ℚ → ℚ × ℚ) :
    ∀ n, (rombergRunUpTo f a b releps abseps dea3 n).broke = false →
      (rombergRunUpTo f a b releps abseps dea3 n).hh = (b - a) / 2 ^ n
      ∧ (rombergRunUpTo f a b releps abseps dea3 n).row.headD 0 = trapT f a b n
      ∧ (rombergRunUpTo f a b releps abseps dea3 n).ipower = 2 ^ n := by
  intro n
  induction n with
  | zero =>
    intro _
    refine ⟨?_, ?_, ?_⟩
    · show b - a = (b - a) / 2 ^ 0
      norm_num
    · rfl
    · rfl
  | succ n ih =>
    intro h
    rw [rombergRunUpTo_succ] at h ⊢
    have hb : (rombergRunUpTo f a b releps abseps dea3 n).broke = false := by
      by_contra hb'
      have hb2 : (rombergRunUpTo f a b releps abseps dea3 n).broke = true := by
        revert hb'
        cases (rombergRunUpTo f a b releps abseps dea3 n).broke <;> simp
      rw [rombergStep_of_broke f a releps abseps dea3 (n + 1) _ hb2] at h
      rw [h] at hb2
      exact Bool.false_ne_true hb2
    obtain ⟨ihh, ihead, iip⟩ := ih hb
    have hdiv : (b - a) / 2 ^ n / 2 = (b - a) / 2 ^ (n + 1) := by
      rw [div_div, ← pow_succ]
    have ht0 : rombergT0 f a (rombergRunUpTo f a b releps abseps dea3 n) = trapT f a b (n + 1) := by
      unfold rombergT0
      simp only [ihh, ihead, iip, hdiv]
      rfl
    have hfields : ∀ s' : RombergState,
        rombergStep f a releps abseps dea3 (n + 1) (rombergRunUpTo f a b releps abseps dea3 n) = s' →
        s'.broke = false →
        s'.hh = (rombergRunUpTo f a b releps abseps dea3 n).hh / 2
        ∧ s'.row = extrapRow (rombergRunUpTo f a b releps abseps dea3 n).row
            (rombergT0 f a (rombergRunUpTo f a b releps abseps dea3 n))
        ∧ s'.ipower = 2 * (rombergRunUpTo f a b releps abseps dea3 n).ipower := by
      intro s' hs' hs'b
      rcases Nat.lt_or_ge (n + 1) 2 with hn | hn
      · rw [rombergStep_early f a releps abseps dea3 (n + 1) _ hb hn] at hs'
        rw [← hs']
        exact ⟨rfl, rfl, rfl⟩
      · by_cases hc : (rombergD f a dea3 (rombergRunUpTo f a b releps abseps dea3 n)).2 ≤
            rMax abseps (releps * rAbs (rombergD f a dea3 (rombergRunUpTo f a b releps abseps dea3 n)).1)
        · rw [rombergStep_late_break f a releps abseps dea3 (n + 1) _ hb hn hc] at hs'
          rw [← hs'] at hs'b
          exact absurd hs'b (by simp)
        · rw [rombergStep_late_cont f a releps abseps dea3 (n + 1) _ hb hn hc] at hs'
          rw [← hs']
          exact ⟨rfl, rfl, rfl⟩
    obtain ⟨fh, fr, fi⟩ := hfields _ rfl h
    refine ⟨?_, ?_, ?_⟩
    · rw [fh, ihh, hdiv]
    · rw [fr, ht0, extrapRow_headD]
    · rw [fi, iip]
      rw [pow_succ, Nat.mul_comm]

/-- C2 (amended: the three-point accelerator is applied to the last
three DIAGONAL Richardson-extrapolated estimates, not to the raw
trapezoid estimates).  `romberg` builds the raw trapezoid estimates at
successively halved step sizes (`hh = (b-a)/2^n`, `ipower = 2^n`, row
head equal to `trapT n`), the table limit clamp keeps the number of
passes between 3 and 30, and from pass index 2 on (once three diagonal
estimates exist) each pass feeds `dea3` the rolled diagonals
`(ih1, ih2)` and the new row's last entry `ih4`
(`rombergD = dea3 ih1 ih2 ih4`), stopping as soon as the accelerated
error satisfies `abserr <= max(abseps, releps * abs(res))`. -/
theorem romberg_acceleration (f : ℚ → ℚ) (a b releps abseps : ℚ)
    (dea3 : ℚ → ℚ → ℚ → ℚ × ℚ) :
    (∀ L : ℤ, 3 ≤ tableLimitClamp L ∧ tableLimitClamp L ≤ 30)
    ∧ (∀ i s, s.broke = true → rombergStep f a releps abseps dea3 i s = s)
    ∧ (∀ i s, s.broke = false → (rombergStep f a releps abseps dea3 i s).hh = s.hh / 2)
    ∧ (∀ i s, s.broke = false → i < 2 → (rombergStep f a releps abseps dea3 i s).broke = false)
    ∧ (∀ i s, s.broke = false → 2 ≤ i →
        ((rombergStep f a releps abseps dea3 i s).res,
         (rombergStep f a releps abseps dea3 i s).abserr) = rombergD f a dea3 s
        ∧ rombergD f a dea3 s =
            dea3 s.ih2 s.ih4 ((extrapRow s.row (rombergT0 f a s)).getLastD 0)
        ∧ (rombergStep f a releps abseps dea3 i s).ih4 =
            (rombergStep f a releps abseps dea3 i s).row.getLastD 0
        ∧ (rombergStep f a releps abseps dea3 i s).ih2 = s.ih4
        ∧ ((rombergStep f a releps abseps dea3 i s).broke = true ↔
            (rombergStep f a releps abseps dea3 i s).abserr ≤
              rMax abseps (releps * rAbs (rombergStep f a releps abseps dea3 i s).res)))
    ∧ (∀ n, (rombergRunUpTo f a b releps abseps dea3 n).broke = false →
        (rombergRunUpTo f a b releps abseps dea3 n).hh = (b - a) / 2 ^ n
        ∧ (rombergRunUpTo f a b releps abseps dea3 n).row.headD 0 = trapT f a b n
        ∧ (rombergRunUpTo f a b releps abseps dea3 n).ipower = 2 ^ n) := by
  refine ⟨?_, ?_, ?_, ?_, ?_, rombergRunUpTo_invariant f a b releps abseps dea3⟩
  · intro L
    constructor
    · exact le_max_right _ _
    · exact max_le (le_trans (min_le_right _ _) (by norm_num)) (by norm_num)
  · intro i s h
    exact rombergStep_of_broke f a releps abseps dea3 i s h
  · intro i s h
    rcases Nat.lt_or_ge i 2 with hi | hi
    · rw [rombergStep_early f a releps abseps dea3 i s h hi]
    · by_cases hc : (rombergD f a dea3 s).2 ≤ rMax abseps (releps * rAbs (rombergD f a dea3 s).1)
      · rw [rombergStep_late_break f a releps abseps dea3 i s h hi hc]
      · rw [rombergStep_late_cont f a releps abseps dea3 i s h hi hc]
  · intro i s h hi
    rw [rombergStep_early f a releps abseps dea3 i s h hi]
  · intro i s h hi
    by_cases hc : (rombergD f a dea3 s).2 ≤ rMax abseps (releps * rAbs (rombergD f a dea3 s).1)
    · rw [rombergStep_late_break f a releps abseps dea3 i s h hi hc]
      exact ⟨rfl, rfl, rfl, rfl, ⟨fun _ => hc, fun _ => rfl⟩⟩
    · rw [rombergStep_late_cont f a releps abseps dea3 i s h hi hc]
      exact ⟨rfl, rfl, rfl, rfl, ⟨fun hb => absurd hb (by simp), fun hb => absurd hb hc⟩⟩

/-- Witness for `romberg_acceleration`: a concrete third pass from the
initial state on f(x) = x^2 over [0, 1] feeds `dea3` the diagonal
triple, and the clamp bound holds at L = 100. -/
theorem romberg_acceleration_witness :
    ((rombergStep (fun x => x * x) 0 0 0 dea3MidOracle 2 (rombergInit (fun x => x * x) 0 1)).res,
     (rombergStep (fun x => x * x) 0 0 0 dea3MidOracle 2 (rombergInit (fun x => x * x) 0 1)).abserr) =
      rombergD (fun x => x * x) 0 dea3MidOracle (rombergInit (fun x => x * x) 0 1)
    ∧ 3 ≤ tableLimitClamp 100 ∧ tableLimitClamp 100 ≤ 30 :=
  ⟨((romberg_acceleration (fun x => x * x) 0 1 0 0 dea3MidOracle).2.2.2.2.1 2
      (rombergInit (fun x => x * x) 0 1) rfl (by decide)).1,
   (romberg_acceleration (fun x => x * x) 0 1 0 0 dea3MidOracle).1 100⟩

/-- Counterexample to C2 as stated: integrating f(x) = x^2 over [0, 1]
with an accelerator oracle that reports its middle argument, the value
recorded after the pass at index 2 is 1/3 — the middle DIAGONAL
estimate (the once-extrapolated R11) — whereas the middle of the last
three raw trapezoid estimates is `trapT 1 = 3/8`: `dea3` is not applied
to the raw trapezoid estimates. -/
theorem romberg_dea3_args_cex :
    (rombergRunUpTo (fun x => x * x) 0 1 0 0 dea3MidOracle 2).res = 1 / 3
    ∧ trapT (fun x => x * x) 0 1 1 = 3 / 8
    ∧ ¬ ((1 : ℚ) / 3 = 3 / 8) := by
  refine ⟨by with_unfolding_all decide, by with_unfolding_all decide, by norm_num⟩

/-- C7 (amended: `romberg` contains no warning call; exhausting the
table limit without meeting the tolerance silently returns the last
accelerated `(res, abserr)` pair).  The run never sets the warning
flag, and the returned pair is read off the final loop state. -/
theorem romberg_silent_nonconvergence (f : ℚ → ℚ) (a b releps abseps : ℚ)
    (dea3 : ℚ → ℚ → ℚ → ℚ × ℚ) (table_limit : ℕ) :
    (rombergRunUpTo f a b releps abseps dea3 table_limit).warned = false
    ∧ romberg f a b releps abseps dea3 table_limit =
        ((rombergRunUpTo f a b releps abseps dea3 (table_limit - 1)).res,
         (rombergRunUpTo f a b releps abseps dea3 (table_limit - 1)).abserr) := by
  constructor
  · induction table_limit with
    | zero => rfl
    | succ n ih =>
      rw [rombergRunUpTo_succ]
      rcases Bool.eq_false_or_eq_true (rombergRunUpTo f a b releps abseps dea3 n).broke with hb | hb
      · rw [rombergStep_of_broke f a releps abseps dea3 (n + 1) _ hb]
        exact ih
      · rcases Nat.lt_or_ge (n + 1) 2 with hn | hn
        · rw [rombergStep_early f a releps abseps dea3 (n + 1) _ hb hn]
        · by_cases hc : (rombergD f a dea3 (rombergRunUpTo f a b releps abseps dea3 n)).2 ≤
              rMax abseps (releps * rAbs (rombergD f a dea3 (rombergRunUpTo f a b releps abseps dea3 n)).1)
          · rw [rombergStep_late_break f a releps abseps dea3 (n + 1) _ hb hn hc]
          · rw [rombergStep_late_cont f a releps abseps dea3 (n + 1) _ hb hn hc]
  · rfl

/-- Counterexample to C7 as stated: with zero tolerances and an
accelerator whose error estimate is always 1, the two-pass run
(table limit 3) ends unbroken — the tolerance test failed on its only
chance — and yet the warned flag is false: `romberg` surfaces no
warning on non-convergence. -/
theorem romberg_exhaustion_cex :
    (rombergRunUpTo (fun x => x * x) 0 1 0 0 dea3LastOracle 2).broke = false
    ∧ ¬ ((rombergRunUpTo (fun x => x * x) 0 1 0 0 dea3LastOracle 2).abserr ≤
        rMax 0 (0 * rAbs (rombergRunUpTo (fun x => x * x) 0 1 0 0 dea3LastOracle 2).res))
    ∧ (rombergRunUpTo (fun x => x * x) 0 1 0 0 dea3LastOracle 2).warned = false := by
  refine ⟨by with_unfolding_all decide, by with_unfolding_all decide,
    by with_unfolding_all decide⟩

/-! ## Helper lemmas: Newton root-finder loops -/

/-- The shared loop skeleton runs at most `fuel` passes, stops only when
the family's test holds on the last update, and warns exactly on fuel
exhaustion. -/
lemma newtonGo_spec {m : ℕ} (stop : (Fin m → ℚ) → (Fin m → ℚ) → Bool)
    (F : (Fin m → ℚ) → (Fin m → ℚ)) :
    ∀ (fuel : ℕ) (z dz : Fin m → ℚ) (c : ℕ),
      (newtonGo stop F fuel z dz c).count ≤ c + fuel
      ∧ ((newtonGo stop F fuel z dz c).warned = false →
          stop (newtonGo stop F fuel z dz c).dz (newtonGo stop F fuel z dz c).z = true)
      ∧ ((newtonGo stop F fuel z dz c).warned = true →
          (newtonGo stop F fuel z dz c).count = c + fuel) := by
  intro fuel
  induction fuel with
  | zero =>
    intro z dz c
    exact ⟨Nat.le_refl _, fun hf => absurd hf (by simp [newtonGo]), fun _ => rfl⟩
  | succ fuel ih =>
    intro z dz c
    by_cases hs : stop (F z) (fun j => z j - F z j) = true
    · have e : newtonGo stop F (fuel + 1) z dz c =
          ⟨fun j => z j - F z j, F z, c + 1, false⟩ := by
        simp [newtonGo, hs]
      rw [e]
      exact ⟨by show c + 1 ≤ c + (fuel + 1); omega, fun _ => hs, fun hf => absurd hf (by simp)⟩
    · have e : newtonGo stop F (fuel + 1) z dz c =
          newtonGo stop F fuel (fun j => z j - F z j) (F z) (c + 1) := by
        simp [newtonGo, hs]
      rw [e]
      obtain ⟨h1, h2, h3⟩ := ih (fun j => z j - F z j) (F z) (c + 1)
      exact ⟨by omega, h2, fun hf => by rw [h3 hf]; omega⟩

/-- C3 (amended: only the Jacobi finder uses the relative test
`abs(dz) > releps * abs(z)`; the Hermite and Laguerre finders compare
the update magnitude against the ABSOLUTE tolerance 3e-14).  All three
simultaneous Newton iterations run at most 10 passes; a run that ends
without the warning stopped with its family's test satisfied by the
last update, and the non-fatal warning is emitted exactly when all 10
passes ran without the test holding, the last iterates being returned
either way. -/
theorem newton_iteration_caps {m : ℕ} (F : (Fin m → ℚ) → (Fin m → ℚ)) (z0 : Fin m → ℚ) :
    (h_roots_newton_loop F z0).count ≤ 10
    ∧ (la_roots_newton_loop F z0).count ≤ 10
    ∧ (j_roots_newton_loop F z0).count ≤ 10
    ∧ ((h_roots_newton_loop F z0).warned = false →
        absStop newtonReleps (h_roots_newton_loop F z0).dz (h_roots_newton_loop F z0).z = true)
    ∧ ((la_roots_newton_loop F z0).warned = false →
        absStop newtonReleps (la_roots_newton_loop F z0).dz (la_roots_newton_loop F z0).z = true)
    ∧ ((j_roots_newton_loop F z0).warned = false →
        relStop newtonReleps (j_roots_newton_loop F z0).dz (j_roots_newton_loop F z0).z = true)
    ∧ ((h_roots_newton_loop F z0).warned = true → (h_roots_newton_loop F z0).count = 10)
    ∧ ((la_roots_newton_loop F z0).warned = true → (la_roots_newton_loop F z0).count = 10)
    ∧ ((j_roots_newton_loop F z0).warned = true → (j_roots_newton_loop F z0).count = 10) := by
  obtain ⟨h1, h2, h3⟩ := newtonGo_spec (absStop newtonReleps) F 10 z0 (fun _ => 0) 0
  obtain ⟨j1, j2, j3⟩ := newtonGo_spec (relStop newtonReleps) F 10 z0 (fun _ => 0) 0
  exact ⟨h1, h1, j1, h2, h2, j2, h3, h3, j3⟩

/-- Witness for `newton_iteration_caps`: with a constant unit update the
Hermite loop exhausts all 10 passes and warns. -/
theorem newton_iteration_caps_witness :
    (h_roots_newton_loop unitKernel zeroIterate).count ≤ 10
    ∧ (h_roots_newton_loop unitKernel zeroIterate).count = 10 :=
  ⟨(newton_iteration_caps unitKernel zeroIterate).1,
   (newton_iteration_caps unitKernel zeroIterate).2.2.2.2.2.2.1
     (by with_unfolding_all decide)⟩

/-- Counterexample to C3 as stated: with the constant correction 1e-20
from the zero iterate, the Hermite (and Laguerre) loop stops after its
very first pass without warning — `abs(dz) = 1e-20 <= 3e-14` absolutely
— even though the claimed relative criterion `abs(dz) <
3e-14 * abs(z)` is FALSE there (the updated root is only 1e-20 in
magnitude, so the relative threshold is 3e-34): Hermite and Laguerre do
not use the relative test. -/
theorem hermite_abs_tol_cex :
    (h_roots_newton_loop tinyKernel zeroIterate).count = 1
    ∧ (h_roots_newton_loop tinyKernel zeroIterate).warned = false
    ∧ relStop newtonReleps (h_roots_newton_loop tinyKernel zeroIterate).dz
        (h_roots_newton_loop tinyKernel zeroIterate).z = false
    ∧ (la_roots_newton_loop tinyKernel zeroIterate).count = 1
    ∧ (la_roots_newton_loop tinyKernel zeroIterate).warned = false := by
  refine ⟨by with_unfolding_all decide, by with_unfolding_all decide,
    by with_unfolding_all decide, by with_unfolding_all decide,
    by with_unfolding_all decide⟩

/-- C8 (code bug at n = 1): `_expand_roots` evaluated at order `n = 1`
with the half-root set `[5]`, weight `[7]`, and `m = (1 + 1) / 2 = 1`
(as computed by `_h_roots_newton` / `_p_roots_newton`) returns TWO
nodes `[0, -0]` with the single weight duplicated, instead of the
single central node the claim (and the spec's n = 1 boundary clause)
requires: decrementing `m` to 0 turns the mirror slice `x[m-1::-1]`
into `x[-1::-1]`, which wraps around and re-emits the whole array. -/
theorem expand_roots_n1_eval :
    expand_roots [5] [7] 1 ((1 + 1) / 2) = ([0, 0], [7, 7])
    ∧ (expand_roots [5] [7] 1 ((1 + 1) / 2)).1.length = 2
    ∧ ¬ (expand_roots [5] [7] 1 ((1 + 1) / 2)).1.length = 1 := by
  refine ⟨by with_unfolding_all decide, by with_unfolding_all decide,
    by with_unfolding_all decide⟩

/-- In the valid region the Jacobi check passes and the Newton result is
returned. -/
lemma j_roots_ok {R : Type} (newton : ℚ → ℚ → R) (alpha beta : ℚ)
    (h1 : -1 < alpha) (h2 : -1 < beta) :
    j_roots newton alpha beta = Except.ok (newton alpha beta) := by
  simp [j_roots, pyAssert, h1, h2]

/-- Outside the valid region the Jacobi check raises before the Newton
computation. -/
lemma j_roots_err {R : Type} (newton : ℚ → ℚ → R) (alpha beta : ℚ)
    (h : alpha ≤ -1 ∨ beta ≤ -1) :
    j_roots newton alpha beta = Except.error jRootsMsg := by
  rcases h with h | h
  · simp [j_roots, pyAssert, not_lt.mpr h]
  · simp [j_roots, pyAssert, not_lt.mpr h]

/-- In the valid region the Laguerre check passes and the Newton result
is returned. -/
lemma la_roots_ok {R : Type} (newton : ℚ → R) (alpha : ℚ) (h : -1 < alpha) :
    la_roots newton alpha = Except.ok (newton alpha) := by
  simp [la_roots, pyAssert, h]

/-- Outside the valid region the Laguerre check raises before the Newton
computation. -/
lemma la_roots_err {R : Type} (newton : ℚ → R) (alpha : ℚ) (h : alpha ≤ -1) :
    la_roots newton alpha = Except.error laRootsMsg := by
  simp [la_roots, pyAssert, not_lt.mpr h]

/-- C6 (confirmed): `j_roots` fails with the `ValueError` of `_assert`
exactly when `alpha <= -1` or `beta <= -1`, and `la_roots` exactly when
`alpha <= -1`; the failure happens before the Newton computation runs
(the result in the failing region does not depend on the Newton
kernel), and for shape parameters strictly greater than -1 the Newton
result is returned with no error. -/
theorem j_la_roots_domain {R : Type} (newton newton2 : ℚ → ℚ → R)
    (newtonLa newtonLa2 : ℚ → R) (alpha beta : ℚ) :
    ((∃ e, j_roots newton alpha beta = Except.error e) ↔ (alpha ≤ -1 ∨ beta ≤ -1))
    ∧ ((∃ e, la_roots newtonLa alpha = Except.error e) ↔ alpha ≤ -1)
    ∧ (alpha ≤ -1 ∨ beta ≤ -1 → j_roots newton alpha beta = j_roots newton2 alpha beta)
    ∧ (alpha ≤ -1 → la_roots newtonLa alpha = la_roots newtonLa2 alpha)
    ∧ (-1 < alpha ∧ -1 < beta → j_roots newton alpha beta = Except.ok (newton alpha beta))
    ∧ (-1 < alpha → la_roots newtonLa alpha = Except.ok (newtonLa alpha)) := by
  refine ⟨⟨?_, ?_⟩, ⟨?_, ?_⟩, ?_, ?_, ?_, ?_⟩
  · rintro ⟨e, he⟩
    by_contra hne
    push_neg at hne
    rw [j_roots_ok newton alpha beta hne.1 hne.2] at he
    exact absurd he (by simp)
  · intro h
    exact ⟨jRootsMsg, j_roots_err newton alpha beta h⟩
  · rintro ⟨e, he⟩
    by_contra hne
    rw [la_roots_ok newtonLa alpha (not_le.mp hne)] at he
    exact absurd he (by simp)
  · intro h
    exact ⟨laRootsMsg, la_roots_err newtonLa alpha h⟩
  · intro h
    rw [j_roots_err newton alpha beta h, j_roots_err newton2 alpha beta h]
  · intro h
    rw [la_roots_err newtonLa alpha h, la_roots_err newtonLa2 alpha h]
  · intro h
    exact j_roots_ok newton alpha beta h.1 h.2
  · intro h
    exact la_roots_ok newtonLa alpha h

/-- Witness for `j_la_roots_domain`: at `alpha = -2` the Jacobi request
fails with the shape error independently of the Newton kernel, and at
`alpha = 0` the Laguerre request succeeds. -/
theorem j_la_roots_domain_witness :
    (∃ e, j_roots (fun _ _ => (0 : ℕ)) (-2) 0 = Except.error e)
    ∧ j_roots (fun _ _ => (0 : ℕ)) (-2) 0 = j_roots (fun _ _ => (1 : ℕ)) (-2) 0
    ∧ la_roots (fun _ => (0 : ℕ)) 0 = Except.ok 0 :=
  ⟨((j_la_roots_domain (fun _ _ => (0 : ℕ)) (fun _ _ => (1 : ℕ))
      (fun _ => (0 : ℕ)) (fun _ => (0 : ℕ)) (-2) 0).1).mpr (by norm_num),
   (j_la_roots_domain (fun _ _ => (0 : ℕ)) (fun _ _ => (1 : ℕ))
      (fun _ => (0 : ℕ)) (fun _ => (0 : ℕ)) (-2) 0).2.2.1 (by norm_num),
   (j_la_roots_domain (fun _ _ => (0 : ℕ)) (fun _ _ => (1 : ℕ))
      (fun _ => (0 : ℕ)) (fun _ => (0 : ℕ)) 0 0).2.2.2.2.2 (by norm_num)⟩

/-! ## Helper lemmas: QuadGR -/

/-- `getD` with default 0 of a list of nonnegatives is nonnegative. -/
lemma listGetD_nonneg (l : List ℚ) (h : ∀ x ∈ l, 0 ≤ x) : ∀ n : ℕ, 0 ≤ l.getD n 0 := by
  induction l with
  | nil => intro n; simp [List.getD]
  | cons a t ih =>
    intro n
    cases n with
    | zero => simpa using h a (by simp)
    | succ n =>
      simp only [List.getD_cons_succ]
      exact ih (fun x hx => h x (by simp [hx])) n

/-- The modelled `abs` is nonnegative. -/
lemma rAbs_nonneg (q : ℚ) : 0 ≤ rAbs q := by
  unfold rAbs
  split
  · linarith
  · next h => exact not_lt.mp h

/-- The error picked by `_get_best_estimate` is an absolute difference,
hence nonnegative. -/
lemma get_best_estimate_err_nonneg (Q0 Q1 Q2 : ℕ → ℚ) (k : ℕ) :
    0 ≤ (get_best_estimate Q0 Q1 Q2 k).2 := by
  dsimp only [get_best_estimate]
  apply listGetD_nonneg
  intro x hx
  rw [List.mem_map] at hx
  obtain ⟨p, _, rfl⟩ := hx
  exact rAbs_nonneg _

/-- A bisection pass keeps the error estimate nonnegative. -/
lemma quadgrStep_err_nonneg (f : ℚ → ℚ) (a b abseps : ℚ) (k : ℕ) (s : QuadgrState)
    (h : 0 ≤ s.err) : 0 ≤ (quadgrStep f a b abseps k s).err := by
  unfold quadgrStep
  split
  · exact h
  · exact get_best_estimate_err_nonneg _ _ _ _

/-- The bisection loop's final error estimate is nonnegative. -/
lemma quadgrRun_err_nonneg (f : ℚ → ℚ) (a b abseps : ℚ) (max_iter : ℕ) :
    0 ≤ (quadgrRun f a b abseps max_iter).err := by
  have gen : ∀ (l : List ℕ) (s : QuadgrState), 0 ≤ s.err →
      0 ≤ (l.foldl (fun s k => quadgrStep f a b abseps k s) s).err := by
    intro l
    induction l with
    | nil => intro s h; exact h
    | cons x xs ih => intro s h; exact ih _ (quadgrStep_err_nonneg f a b abseps x s h)
  exact gen _ _ (le_refl 0)

/-- `_integrate` always returns an error bumped to at least `2 * eps`. -/
lemma quadgrIntegrate_err_pos (f : ℚ → ℚ) (a b abseps : ℚ) (max_iter : ℕ) :
    0 < (quadgrIntegrate f a b abseps max_iter).2 := by
  have h := quadgrRun_err_nonneg f a b abseps max_iter
  have heps : (0 : ℚ) < epsQ := by norm_num [epsQ]
  show 0 < (quadgrRun f a b abseps max_iter).err + 2 * epsQ
  linarith

/-- C4 (amended: for every pair of DISTINCT limits the reported error is
strictly positive, being bumped by `2 * eps`; for equal limits the
degenerate branch returns the error `b - a` exactly, which is exactly
zero for finite equal limits).  Whenever `a` and `b` differ (and the
loop runs at least once, `max_iter >= 2`), `quadgr`'s error component
is a finite number strictly greater than zero. -/
theorem quadgr_err_bump (f : ℚ → ℚ) (a b : XLim) (abseps : ℚ) (max_iter : ℕ)
    (hmi : 2 ≤ max_iter) (hab : xeq a b = false) :
    ∃ e : ℚ, (quadgr f a b abseps max_iter).2 = XVal.num e ∧ 0 < e := by
  unfold quadgr
  rw [hab, if_neg Bool.false_ne_true]
  cases a with
  | fin x =>
    cases b with
    | fin y =>
      by_cases hxy : y < x
      · have hg : xgt (XLim.fin x) (XLim.fin y) = true := by simp [xgt, hxy]
        rw [hg]
        exact ⟨_, rfl, quadgrIntegrate_err_pos f y x abseps max_iter⟩
      · have hg : xgt (XLim.fin x) (XLim.fin y) = false := by simp [xgt, hxy]
        rw [hg]
        exact ⟨_, rfl, quadgrIntegrate_err_pos f x y abseps max_iter⟩
    | pinf =>
      exact ⟨_, rfl, quadgrIntegrate_err_pos _ 0 1 abseps max_iter⟩
    | ninf =>
      exact ⟨_, rfl, quadgrIntegrate_err_pos _ (-1) 0 abseps max_iter⟩
  | pinf =>
    cases b with
    | fin y =>
      exact ⟨_, rfl, quadgrIntegrate_err_pos _ 0 1 abseps max_iter⟩
    | pinf => simp [xeq] at hab
    | ninf =>
      exact ⟨_, rfl, add_pos (quadgrIntegrate_err_pos _ 0 1 (abseps / 2) max_iter)
        (quadgrIntegrate_err_pos _ (-1) 0 (abseps / 2) max_iter)⟩
  | ninf =>
    cases b with
    | fin y =>
      exact ⟨_, rfl, quadgrIntegrate_err_pos _ (-1) 0 abseps max_iter⟩
    | pinf =>
      exact ⟨_, rfl, add_pos (quadgrIntegrate_err_pos _ 0 1 (abseps / 2) max_iter)
        (quadgrIntegrate_err_pos _ (-1) 0 (abseps / 2) max_iter)⟩
    | ninf => simp [xeq] at hab

/-- Witness for `quadgr_err_bump`: on the concrete interval [0, 1] the
reported error is finite and strictly positive. -/
theorem quadgr_err_bump_witness :
    ∃ e : ℚ, (quadgr (fun x => x) (XLim.fin 0) (XLim.fin 1) (1 / 100000) 2).2 = XVal.num e
      ∧ 0 < e :=
  quadgr_err_bump (fun x => x) (XLim.fin 0) (XLim.fin 1) (1 / 100000) 2 (by norm_num)
    (by with_unfolding_all decide)

/-- Counterexample to C4 as stated: for the equal limits a = b = 0 the
degenerate branch returns the pair (0, 0), so the reported error is
EXACTLY zero — no epsilon bump happens on this path. -/
theorem quadgr_zero_err_cex :
    (quadgr (fun x => x) (XLim.fin 0) (XLim.fin 0) (1 / 100000) 17).2 = XVal.num 0 := by
  with_unfolding_all decide

/-- C5 (amended: the degenerate branch returns `(b - a, b - a)` with no
integrand evaluation — `(0, 0)` for equal FINITE limits, but
`(nan, nan)` for equal infinite limits, since `inf - inf` is NaN).
The result on `a == b` is independent of the integrand, equals the
IEEE difference `b - a` in both components, evaluates to `(0, 0)` for
finite limits and to `(nan, nan)` for the two infinite limits. -/
theorem quadgr_degenerate (f g : ℚ → ℚ) (a : XLim) (abseps : ℚ) (max_iter : ℕ) :
    quadgr f a a abseps max_iter = (xsub a a, xsub a a)
    ∧ quadgr f a a abseps max_iter = quadgr g a a abseps max_iter
    ∧ (∀ q : ℚ, quadgr f (XLim.fin q) (XLim.fin q) abseps max_iter = (XVal.num 0, XVal.num 0))
    ∧ quadgr f XLim.pinf XLim.pinf abseps max_iter = (XVal.nan, XVal.nan)
    ∧ quadgr f XLim.ninf XLim.ninf abseps max_iter = (XVal.nan, XVal.nan) := by
  have he : ∀ (h : ℚ → ℚ) (x : XLim), quadgr h x x abseps max_iter = (xsub x x, xsub x x) := by
    intro h x
    have hx : xeq x x = true := by cases x <;> simp [xeq]
    unfold quadgr
    rw [hx, if_pos rfl]
  refine ⟨he f a, by rw [he f a, he g a], ?_, ?_, ?_⟩
  · intro q
    rw [he f (XLim.fin q)]
    simp [xsub]
  · rw [he f XLim.pinf]
    rfl
  · rw [he f XLim.ninf]
    rfl

/-- Counterexample to C5 as stated: at the equal infinite limits
a = b = +inf the immediate return is `(inf - inf, inf - inf) =
(nan, nan)`, not `(0, 0)`. -/
theorem quadgr_inf_limits_cex :
    quadgr (fun x => x) XLim.pinf XLim.pinf (1 / 100000) 17 = (XVal.nan, XVal.nan)
    ∧ ((XVal.nan, XVal.nan) : XVal × XVal) ≠ (XVal.num 0, XVal.num 0) := by
  refine ⟨rfl, by decide⟩

set_option maxRecDepth 8000 in
/-- C10 (confirmed): the cache key of `_points_and_weights` formats the
shape parameters with 6-significant-digit `'g'` formatting, so the two
distinct alphas 0.1234561 and 0.1234562 (which agree to six significant
digits) share a key: after a rule is cached for the first, a request
for the second returns the rule computed for the FIRST alpha
(`alphaRule` reports the alpha a rule was computed for) rather than
recomputing. -/
theorem cache_six_digit_collision :
    (1234561 / 10000000 : ℚ) ≠ (1234562 / 10000000 : ℚ)
    ∧ cacheName 1 2 (1234561 / 10000000) 0 = cacheName 1 2 (1234562 / 10000000) 0
    ∧ (points_and_weights alphaRule
        (points_and_weights alphaRule [] 2 1 (1234561 / 10000000) 0).2
        2 1 (1234562 / 10000000) 0).1 = 1234561 / 10000000
    ∧ ¬ (points_and_weights alphaRule
        (points_and_weights alphaRule [] 2 1 (1234561 / 10000000) 0).2
        2 1 (1234562 / 10000000) 0).1 = 1234562 / 10000000 := by
  have g1 : gKey (1234561 / 10000000) = (123456, -6) := by with_unfolding_all decide
  have g2 : gKey (1234562 / 10000000) = (123456, -6) := by with_unfolding_all decide
  have hkey : cacheName 1 2 (1234561 / 10000000) 0 = cacheName 1 2 (1234562 / 10000000) 0 := by
    unfold cacheName
    rw [g1, g2]
  have hne : (1234561 / 10000000 : ℚ) ≠ (1234562 / 10000000 : ℚ) := by
    with_unfolding_all decide
  have h3 : (points_and_weights alphaRule
      (points_and_weights alphaRule [] 2 1 (1234561 / 10000000) 0).2
      2 1 (1234562 / 10000000) 0).1 = 1234561 / 10000000 := by
    have e1 : (points_and_weights alphaRule [] 2 1 (1234561 / 10000000) 0).2 =
        [(cacheName 1 2 (1234561 / 10000000) 0, 1234561 / 10000000)] := rfl
    rw [e1]
    unfold points_and_weights
    rw [← hkey]
    simp [List.find?]
  exact ⟨hne, hkey, h3, by rw [h3]; exact hne⟩
